import Mathlib

/-!
Formal model of the terminal-row data structure implemented in
src/src/buffer/out/Row.cpp.  A `ROW` stores one line of the screen as a
packed code-unit buffer `chars`, a per-column offset table `indices`
(`width + 1` entries, entry `width` being the total code-unit count), a
run-length-encoded attribute sequence `attr`, and flags.

Modelling conventions:
* Code units (`wchar_t`) are `Nat` (blank = 0x20, DBCS sentinel = 0xFFFF).
* `uint16_t` quantities are `Nat`; all states the claims quantify over keep
  every value far below 2^16, so wrap-around never occurs there.  The one
  place where `gsl::narrow<uint16_t>` can fail (ROW::ReplaceCharacters'
  entry) is modelled explicitly with `narrow16` over `Int`.
* `_chars` is modelled as its observable content `chars[0 .. indices[W])`;
  the capacity bookkeeping of `_resizeChars` only moves that content, so
  the shift-the-tail-then-overwrite sequence of the source composes to a
  single splice of that logical list.
* C++ exceptions (`THROW_HR_IF`, throwing `gsl::narrow`) become
  `Except Unit`.
-/

/-- Text attribute value attached to a run.  Modelled from the spec: the
TextAttribute class itself is not part of the given sources; §6 of the spec
requires only value equality, `IsHyperlink() → bool` and
`GetHyperlinkId() → integer`, with hyperlink ids "non-zero" exactly on
hyperlink attributes.  `payload` stands for all remaining color/style
state. -/
structure TextAttribute where
  payload : Nat
  hyperlinkId : Nat
deriving DecidableEq

def TextAttribute.IsHyperlink (a : TextAttribute) : Bool :=
  a.hyperlinkId != 0

def TextAttribute.GetHyperlinkId (a : TextAttribute) : Nat :=
  a.hyperlinkId

/-- One `(value, length)` run of the RLE attribute storage
(`til::small_rle`). -/
structure AttrRun where
  value : TextAttribute
  length : Nat
deriving DecidableEq

/-- Column-by-column view of an RLE sequence. -/
def decompress (runs : List AttrRun) : List TextAttribute :=
  runs.foldr (fun run acc => List.replicate run.length run.value ++ acc) []

/-- Canonical (maximally merged) RLE form of a column list. -/
def compress : List TextAttribute → List AttrRun
  | [] => []
  | a :: rest =>
    match compress rest with
    | [] => [⟨a, 1⟩]
    | run :: runs =>
      if run.value = a then ⟨a, run.length + 1⟩ :: runs else ⟨a, 1⟩ :: run :: runs

/-- Modelled from the spec: `til::small_rle::replace` is not part of the
given sources.  §4.2: "overwrite `[begin, end)` columns with `attr`,
merging with adjacent equal runs" (canonical form afterwards). -/
def rleReplace (runs : List AttrRun) (b e : Nat) (a : TextAttribute) : List AttrRun :=
  let cols := decompress runs
  compress (cols.take b ++ List.replicate (min e cols.length - b) a ++ cols.drop e)

/-- Modelled from the spec: per-column attribute lookup
(`til::small_rle::at`). -/
def attrAt (runs : List AttrRun) (col : Nat) : TextAttribute :=
  (decompress runs).getD col ⟨0, 0⟩

/-- Total number of columns covered by an RLE sequence. -/
def rleSize (runs : List AttrRun) : Nat :=
  (decompress runs).length

/-- Modelled from the spec: `til::small_rle::resize_trailing_extent` is not
part of the given sources.  §4.2: "grow or shrink the last run so total
length = `newW`; if shrinking past multiple runs, drop them". -/
def resizeTrailingExtent (runs : List AttrRun) (newW : Nat) : List AttrRun :=
  let cols := decompress runs
  if newW ≤ cols.length then compress (cols.take newW)
  else compress (cols ++ List.replicate (newW - cols.length) (runs.getLastD ⟨⟨0, 0⟩, 0⟩).value)

inductive LineRendition where
  | singleWidth
  | doubleWidth
  | doubleHeightTop
  | doubleHeightBottom
deriving DecidableEq

/-- The row state.  `chars` is the logical content `_chars[0.._indices[W])`;
`indices` has `width + 1` entries; `dbcsPaddedColumns` is the lazily
allocated bitmap (`none` = not allocated). -/
structure ROW where
  chars : List Nat
  indices : List Nat
  attr : List AttrRun
  width : Nat
  lineRendition : LineRendition
  wrapForced : Bool
  doubleBytePadded : Bool
  dbcsPaddedColumns : Option (List Bool)
deriving DecidableEq

/-- The decrement loop pattern `for (; c != 0 && indices[c-1] == v; --c)`
used by `ROW::ReplaceCharacters` (computing `col0`) and `ROW::Resize`
(shrinking `colsToCopy`). -/
def scanLeft (ind : List Nat) : Nat → Nat → Nat
  | 0, _ => 0
  | c + 1, v => if ind.getD c 0 = v then scanLeft ind c v else c + 1

/-- The increment loop pattern "first `c ≥ start` with `indices[c] ≠ v`",
used by `ROW::ReplaceCharacters` (computing `col3`) and `ROW::GlyphAt`.
`fuel` bounds the scan; on every state satisfying the row invariants the
scan stops at `width` at the latest, before the fuel runs out (the C++
loop would read out of bounds otherwise). -/
def scanRight (ind : List Nat) (v : Nat) : Nat → Nat → Nat
  | c, 0 => c
  | c, fuel + 1 => if ind.getD c 0 = v then scanRight ind v (c + 1) fuel else c

/-- New value of `indices[c]` written by `ROW::ReplaceCharacters` (the
write loop at the end of the function, lines 327-350): `[col0, col1)` get
consecutive offsets of the leading blanks, `[col1, col2)` all point at the
start of the new glyph, `[col2, col3)` get consecutive offsets of the
trailing blanks, and `[col3, W]` is shifted by `newCh1 - ch1`
(`_resizeChars`; the source adds the possibly negative difference with
wrap-around that cancels; for `c ≥ col3` the row invariants give
`indices[c] ≥ ch1`, so `Nat` arithmetic `indices[c] + newCh1 - ch1` is the
same value). -/
def replaceIdxFun (r : ROW) (col1 col2 glen : Nat) (c : Nat) : Nat :=
  let ch0 := r.indices.getD col1 0
  let col0 := scanLeft r.indices col1 ch0
  let ch1ref := r.indices.getD (col2 - 1) 0
  let col3 := scanRight r.indices ch1ref col2 (r.width + 2 - col2)
  let ch1 := r.indices.getD col3 0
  if c < col0 then r.indices.getD c 0
  else if c < col1 then ch0 + (c - col0)
  else if c < col2 then ch0 + (col1 - col0)
  else if c < col3 then ch0 + (col1 - col0) + glen + (c - col2)
  else r.indices.getD c 0 + (ch0 + (col1 - col0) + glen + (col3 - col2)) - ch1

/-- New content of `chars` written by `ROW::ReplaceCharacters`: the prefix
`[0, ch0)` is kept, `[ch0, newCh1)` becomes `leadingSpaces` blanks + the
glyph + `trailingSpaces` blanks, and the old tail `[ch1, len)` follows
(after `_resizeChars` moved it). -/
def replaceNewChars (r : ROW) (col1 col2 : Nat) (g : List Nat) : List Nat :=
  let ch0 := r.indices.getD col1 0
  let col0 := scanLeft r.indices col1 ch0
  let ch1ref := r.indices.getD (col2 - 1) 0
  let col3 := scanRight r.indices ch1ref col2 (r.width + 2 - col2)
  let ch1 := r.indices.getD col3 0
  r.chars.take ch0
    ++ (List.replicate (col1 - col0) 0x20 ++ g ++ List.replicate (col3 - col2) 0x20)
    ++ r.chars.drop ch1

/-- Body of `ROW::ReplaceCharacters` after the two `gsl::narrow` calls:
`col1`/`col2` are the narrowed `x` and `x + width`.  The guard
`(col1 >= col2) | (col2 > _indicesCount) | chars.empty()` makes degenerate
calls a silent no-op; otherwise the edit is expanded to whole glyphs and
spliced in. -/
def replaceCharsAt (r : ROW) (col1 col2 : Nat) (g : List Nat) : ROW :=
  if col1 ≥ col2 ∨ col2 > r.width ∨ g = [] then r
  else
    { r with
      chars := replaceNewChars r col1 col2 g,
      indices := (List.range (r.width + 1)).map (replaceIdxFun r col1 col2 g.length) }

/-- `ROW::ReplaceCharacters` for in-range (already narrowed) arguments, as
invoked internally by `ROW::WriteCells` and `ROW::ClearCell`. -/
def ROW.ReplaceCharacters (r : ROW) (x width : Nat) (g : List Nat) : ROW :=
  replaceCharsAt r x (x + width) g

/-- `gsl::narrow<uint16_t>`: succeeds exactly on `[0, 2^16)`. -/
def narrow16 (x : Int) : Except Unit Nat :=
  if 0 ≤ x ∧ x < 65536 then Except.ok x.toNat else Except.error ()

/-- `ROW::ReplaceCharacters` as callable from outside: both
`gsl::narrow<uint16_t>` conversions run (and can throw) before the
degenerate-range guard. -/
def ROW.ReplaceCharactersChecked (r : ROW) (x width : Int) (g : List Nat) :
    Except Unit ROW :=
  match narrow16 x, narrow16 (x + width) with
  | Except.ok col1, Except.ok col2 => Except.ok (replaceCharsAt r col1 col2 g)
  | Except.error e, _ => Except.error e
  | _, Except.error e => Except.error e

/-- `ROW::ClearCell`: replace one column with a single blank. -/
def ROW.ClearCell (r : ROW) (column : Nat) : ROW :=
  r.ReplaceCharacters column 1 [0x20]

/-- `ROW::ClearColumn`: bounds check (`THROW_HR_IF(E_INVALIDARG, column >=
size())`), then `ClearCell`. -/
def ROW.ClearColumn (r : ROW) (column : Nat) : Except Unit ROW :=
  if r.width ≤ column then Except.error () else Except.ok (r.ClearCell column)

/-- `ROW::Replace`: overwrite the attributes of `[beginIndex, endIndex)`. -/
def ROW.Replace (r : ROW) (beginIndex endIndex : Nat) (a : TextAttribute) : ROW :=
  { r with attr := rleReplace r.attr beginIndex endIndex a }

/-- `ROW::Reset`: `_reset()` (blank chars, identity indices, drop the grown
buffer and the DBCS bitmap) followed by fresh single-run attributes and
cleared flags. -/
def ROW.Reset (r : ROW) (a : TextAttribute) : ROW :=
  { chars := List.replicate r.width 0x20,
    indices := List.range (r.width + 1),
    attr := [⟨a, r.width⟩],
    width := r.width,
    lineRendition := LineRendition.singleWidth,
    wrapForced := false,
    doubleBytePadded := false,
    dbcsPaddedColumns := none }

/-- A freshly constructed row of width `w`: the constructor runs `_reset()`
on the caller's buffers and initializes `_attr{rowWidth, fillAttribute}`
with default (false) flags. -/
def freshRow (w : Nat) (a : TextAttribute) : ROW :=
  ROW.Reset ⟨[], [], [], w, LineRendition.singleWidth, false, false, none⟩ a

/-- `ROW::GlyphAt`: clamp the column, then scan forward past the columns
sharing the same offset; the glyph is `chars[current .. indices[stop])`. -/
def ROW.GlyphAt (r : ROW) (column : Nat) : List Nat :=
  let column := min column (r.width - 1)
  let current := r.indices.getD column 0
  let stop := scanRight r.indices current (column + 1) (r.width + 1)
  (r.chars.drop current).take (r.indices.getD stop 0 - current)

/-- `ROW::GetHyperlinks`: one pass over the runs, appending the id of every
run whose attribute is a hyperlink (no deduplication in the source). -/
def ROW.GetHyperlinks (r : ROW) : List Nat :=
  r.attr.foldl
    (fun ids run =>
      if run.value.IsHyperlink then ids ++ [run.value.GetHyperlinkId] else ids)
    []

/-- `ROW::Resize`.  `newIndices` is the caller-provided replacement
`indices` backing of `newWidth + 1` entries with its prior (arbitrary)
contents: the source writes `colsToCopy` copied entries plus
`trailingWhitespace` iota entries — `newWidth` entries in total — so slot
`newWidth` keeps whatever the caller's buffer held (`newIndices.getD
newWidth 0` below).  Chars get `charsToCopy` copied code units plus blanks;
a wide glyph whose trailing columns would be clipped is dropped whole by
the `scanLeft` loop. -/
def ROW.Resize (r : ROW) (newIndices : List Nat) (newWidth : Nat) : ROW :=
  let c0 := min r.width newWidth
  let charsToCopy := r.indices.getD c0 0
  let colsToCopy := scanLeft r.indices c0 charsToCopy
  let trailingWhitespace := newWidth - colsToCopy
  { chars := r.chars.take charsToCopy ++ List.replicate trailingWhitespace 0x20,
    indices := r.indices.take colsToCopy
      ++ (List.range trailingWhitespace).map (fun i => charsToCopy + i)
      ++ [newIndices.getD newWidth 0],
    attr := resizeTrailingExtent r.attr newWidth,
    width := newWidth,
    lineRendition := r.lineRendition,
    wrapForced := r.wrapForced,
    doubleBytePadded := r.doubleBytePadded,
    dbcsPaddedColumns := r.dbcsPaddedColumns.map
      (fun l => l.take colsToCopy ++ List.replicate trailingWhitespace false) }

/-- DBCS marker of one input cell. -/
inductive DbcsKind where
  | single
  | leading
  | trailing
deriving DecidableEq

/-- `TextAttributeBehavior` of one input cell. -/
inductive Behavior where
  | normal
  | current
  | storedOnly
deriving DecidableEq

/-- One item produced by the `OutputCellIterator` feeding
`ROW::WriteCells`. -/
structure Cell where
  chars : List Nat
  dbcs : DbcsKind
  textAttr : TextAttribute
  behavior : Behavior
deriving DecidableEq

/-- The loop state of `ROW::WriteCells`: the row being mutated, the
remaining iterator, and the pending attribute run
(`currentColor`/`colorUses`/`colorStarts`) plus `currentIndex`. -/
structure WriteState where
  row : ROW
  it : List Cell
  currentColor : TextAttribute
  colorStarts : Nat
  colorUses : Nat
  currentIndex : Nat
deriving DecidableEq

/-- Attribute half of one `WriteCells` loop iteration: extend the pending
run on equal colors, otherwise commit it via `Replace` and open a new one;
cells with behavior `Current` leave the attribute state alone. -/
def colorStep (cell : Cell) (s : WriteState) : WriteState :=
  if cell.behavior ≠ Behavior.current then
    if s.currentColor = cell.textAttr then { s with colorUses := s.colorUses + 1 }
    else
      { s with
        row := s.row.Replace s.colorStarts s.currentIndex s.currentColor,
        currentColor := cell.textAttr,
        colorUses := 1,
        colorStarts := s.currentIndex }
  else s

/-- Text half of one `WriteCells` loop iteration (skipped for behavior
`StoredOnly`, which only advances the iterator): `Single` writes one
column; `Leading` at the last writable column clears the cell, sets the
`doubleBytePadded` flag and does NOT consume the iterator, otherwise it
writes two columns; `Trailing` pairs the U+FFFF sentinel with the glyph at
the previous column.  Afterwards the wrap flag is applied when the last
column was just filled. -/
def textStep (final : Nat) (wrap : Option Bool) (cell : Cell) (rest : List Cell)
    (s : WriteState) : WriteState :=
  if cell.behavior ≠ Behavior.storedOnly then
    let fillingLast := s.currentIndex = final
    let s2 : WriteState :=
      match cell.dbcs with
      | DbcsKind.single =>
        { s with row := s.row.ReplaceCharacters s.currentIndex 1 cell.chars, it := rest }
      | DbcsKind.leading =>
        if fillingLast then
          { s with row := { s.row.ClearCell s.currentIndex with doubleBytePadded := true } }
        else
          { s with row := s.row.ReplaceCharacters s.currentIndex 2 cell.chars, it := rest }
      | DbcsKind.trailing =>
        if cell.chars = [0xFFFF] ∧ s.currentIndex ≠ 0 then
          { s with
            row := s.row.ReplaceCharacters (s.currentIndex - 1) 2
              [s.row.chars.getD (s.row.indices.getD (s.currentIndex - 1) 0) 0, 0xFFFF],
            it := rest }
        else { s with it := rest }
    if wrap.isSome ∧ fillingLast then
      { s2 with row := { s2.row with wrapForced := wrap.getD false } }
    else s2
  else { s with it := rest }

/-- The `while (it && currentIndex <= finalColumnInRow)` loop of
`ROW::WriteCells`.  Each iteration advances `currentIndex` by one, so
`final + 1 - index` fuel runs it to completion. -/
def writeCellsLoop (final : Nat) (wrap : Option Bool) : Nat → WriteState → WriteState
  | 0, s => s
  | fuel + 1, s =>
    match s.it with
    | [] => s
    | cell :: rest =>
      if s.currentIndex ≤ final then
        let s' := textStep final wrap cell rest (colorStep cell s)
        writeCellsLoop final wrap fuel { s' with currentIndex := s'.currentIndex + 1 }
      else s

/-- Loop state at entry of `ROW::WriteCells`: `currentColor` is read from
the iterator head before the loop (the source dereferences the iterator
here unconditionally; the default cell stands for that read on an empty
iterator, whose color is then never used since `colorUses` stays 0). -/
def initWriteState (r : ROW) (cells : List Cell) (index : Nat) : WriteState :=
  { row := r,
    it := cells,
    currentColor := (cells.headD ⟨[0x20], DbcsKind.single, ⟨0, 0⟩, Behavior.normal⟩).textAttr,
    colorStarts := index,
    colorUses := 0,
    currentIndex := index }

/-- The loop of `ROW::WriteCells` run to completion from the entry state. -/
def writeLoopOut (r : ROW) (cells : List Cell) (index : Nat) (wrap : Option Bool)
    (final : Nat) : WriteState :=
  writeCellsLoop final wrap (final + 1 - index) (initWriteState r cells index)

/-- `ROW::WriteCells` after the two bounds checks: run the loop, then
commit the final attribute run — only under `if (colorUses)`.  Returns the
row and the first unconsumed iterator position. -/
def writeCellsFrom (r : ROW) (cells : List Cell) (index : Nat) (wrap : Option Bool)
    (final : Nat) : ROW × List Cell :=
  let out := writeLoopOut r cells index wrap final
  (if out.colorUses ≠ 0 then out.row.Replace out.colorStarts out.currentIndex out.currentColor
   else out.row,
   out.it)

/-- `ROW::WriteCells`: `THROW_HR_IF(E_INVALIDARG, index >= size())` and
`THROW_HR_IF(E_INVALIDARG, limitRight.value_or(0) >= size())` run before
any mutation; then the write loop with
`finalColumnInRow = limitRight.value_or(size() - 1)`. -/
def ROW.WriteCells (r : ROW) (cells : List Cell) (index : Nat) (wrap : Option Bool)
    (limitRight : Option Nat) : Except Unit (ROW × List Cell) :=
  if r.width ≤ index then Except.error ()
  else if r.width ≤ limitRight.getD 0 then Except.error ()
  else Except.ok (writeCellsFrom r cells index wrap (limitRight.getD (r.width - 1)))

/-- The row invariants the claims quantify over (spec §3 I1/I4/I5): the
offset table has `width + 1` entries, `chars` is exactly the content up to
`indices[width]`, offsets are non-decreasing, and every column's offset is
strictly below the total (every glyph has at least one code unit). -/
def Valid (r : ROW) : Prop :=
  r.indices.length = r.width + 1 ∧
  r.chars.length = r.indices.getD r.width 0 ∧
  (∀ c, c < r.width → r.indices.getD c 0 ≤ r.indices.getD (c + 1) 0) ∧
  (∀ c, c < r.width → r.indices.getD c 0 < r.indices.getD r.width 0)

instance (r : ROW) : Decidable (Valid r) := by
  unfold Valid; infer_instance

/-! Concrete inputs used to instantiate the theorems below. -/

/-- A plain (non-hyperlink) attribute. -/
def attrA : TextAttribute := ⟨0, 0⟩

/-- A second plain attribute, distinct from `attrA`. -/
def attrB : TextAttribute := ⟨1, 0⟩

/-- An attribute carrying hyperlink id 5. -/
def attrH5 : TextAttribute := ⟨0, 5⟩

/-- Width-10 row with the wide glyph U+6F22 on columns 3-4
(spec scenario S2). -/
def wideRow : ROW := (freshRow 10 attrA).ReplaceCharacters 3 2 [0x6F22]

/-- Width-5 row with the wide glyph U+6F22 on columns 3-4
(spec scenario S7). -/
def wideRow5 : ROW := (freshRow 5 attrA).ReplaceCharacters 3 2 [0x6F22]

/-- Width-3 row whose attribute runs are hyperlink(5), plain,
hyperlink(5): two non-adjacent runs carrying the same hyperlink id. -/
def hyperRow : ROW := ((freshRow 3 attrA).Replace 0 1 attrH5).Replace 2 3 attrH5

/-- One `Single` cell with attribute `attrB` and behavior `Normal`. -/
def cellsNormal : List Cell := [⟨[88], DbcsKind.single, attrB, Behavior.normal⟩]

/-- One `Single` cell with attribute `attrB` and behavior `Current`: its
text is written but its attribute is never opened as a run. -/
def cellsCurrent : List Cell := [⟨[88], DbcsKind.single, attrB, Behavior.current⟩]

/-- A `Leading` cell (first half of the wide glyph U+6F22). -/
def leadCell : Cell := ⟨[0x6F22], DbcsKind.leading, attrB, Behavior.normal⟩

/-- A `WriteCells` loop state sitting at the last writable column 3 of a
fresh width-4 row with the `Leading` cell at the head of the iterator
(spec scenario S6 at its final step). -/
def c6State : WriteState :=
  { row := freshRow 4 attrA,
    it := [leadCell],
    currentColor := attrB,
    colorStarts := 0,
    colorUses := 1,
    currentIndex := 3 }

/-! Helper lemmas. -/

theorem getD_range {i n : Nat} (h : i < n) (d : Nat) : (List.range n).getD i d = i := by
  rw [List.getD_eq_getElem _ _ (by simpa using h)]
  simp

theorem getD_range_map (f : Nat → Nat) {i n : Nat} (h : i < n) (d : Nat) :
    ((List.range n).map f).getD i d = f i := by
  rw [List.getD_eq_getElem _ _ (by simpa using h)]
  simp

theorem getD_replicate_lt {α : Type} {a d : α} {i n : Nat} (h : i < n) :
    (List.replicate n a).getD i d = a := by
  rw [List.getD_eq_getElem _ _ (by simpa using h)]
  simp

theorem getD_append_append {α : Type} (xs ys zs : List α) (n k : Nat) (d : α)
    (hn : xs.length = n) (hk : k < ys.length) :
    (xs ++ ys ++ zs).getD (n + k) d = ys.getD k d := by
  subst hn
  rw [List.getD_append _ _ _ _ (by simp; omega)]
  rw [List.getD_append_right _ _ _ _ (by omega)]
  congr 1
  omega

theorem mono_getD_le (ind : List Nat) (W : Nat)
    (hm : ∀ c, c < W → ind.getD c 0 ≤ ind.getD (c + 1) 0) :
    ∀ a b, a ≤ b → b ≤ W → ind.getD a 0 ≤ ind.getD b 0 := by
  intro a b
  induction b with
  | zero =>
    intro hab _
    have : a = 0 := Nat.le_zero.mp hab
    subst this
    exact Nat.le_refl _
  | succ b ih =>
    intro hab hbW
    rcases Nat.lt_or_ge a (b + 1) with h | h
    · exact Nat.le_trans (ih (Nat.lt_succ_iff.mp h) (by omega)) (hm b (by omega))
    · have : a = b + 1 := by omega
      subst this
      exact Nat.le_refl _

theorem scanLeft_le (ind : List Nat) (c v : Nat) : scanLeft ind c v ≤ c := by
  induction c with
  | zero => exact Nat.le_refl _
  | succ c ih =>
    simp only [scanLeft]
    split
    · exact Nat.le_trans ih (Nat.le_succ c)
    · exact Nat.le_refl _

theorem scanLeft_eq (ind : List Nat) (v : Nat) :
    ∀ c j, scanLeft ind c v ≤ j → j < c → ind.getD j 0 = v := by
  intro c
  induction c with
  | zero => intro j _ h2; omega
  | succ c ih =>
    intro j h1 h2
    by_cases h : ind.getD c 0 = v
    · rcases Nat.lt_or_ge j c with hj | hj
      · exact ih j (by simpa only [scanLeft, if_pos h] using h1) hj
      · have : j = c := by omega
        subst this
        exact h
    · simp only [scanLeft, if_neg h] at h1
      omega

theorem scanLeft_stop (ind : List Nat) (c v : Nat) :
    scanLeft ind c v = 0 ∨ ind.getD (scanLeft ind c v - 1) 0 ≠ v := by
  induction c with
  | zero => exact Or.inl rfl
  | succ c ih =>
    by_cases h : ind.getD c 0 = v
    · simpa only [scanLeft, if_pos h] using ih
    · simp only [scanLeft, if_neg h]
      exact Or.inr (by rw [Nat.add_sub_cancel]; exact h)

theorem scanRight_ge (ind : List Nat) (v : Nat) :
    ∀ fuel c, c ≤ scanRight ind v c fuel := by
  intro fuel
  induction fuel with
  | zero => intro c; exact Nat.le_refl _
  | succ fuel ih =>
    intro c
    simp only [scanRight]
    split
    · exact Nat.le_trans (Nat.le_succ c) (ih (c + 1))
    · exact Nat.le_refl _

theorem scanRight_eq (ind : List Nat) (v : Nat) :
    ∀ fuel c j, c ≤ j → j < scanRight ind v c fuel → ind.getD j 0 = v := by
  intro fuel
  induction fuel with
  | zero =>
    intro c j h1 h2
    simp only [scanRight] at h2
    omega
  | succ fuel ih =>
    intro c j h1 h2
    by_cases h : ind.getD c 0 = v
    · rcases Nat.lt_or_ge c j with hj | hj
      · exact ih (c + 1) j hj (by simpa only [scanRight, if_pos h] using h2)
      · have : j = c := by omega
        subst this
        exact h
    · simp only [scanRight, if_neg h] at h2
      omega

theorem scanRight_stop (ind : List Nat) (v : Nat) :
    ∀ fuel c, scanRight ind v c fuel < c + fuel → ind.getD (scanRight ind v c fuel) 0 ≠ v := by
  intro fuel
  induction fuel with
  | zero =>
    intro c h
    simp only [scanRight] at h
    omega
  | succ fuel ih =>
    intro c h
    by_cases hc : ind.getD c 0 = v
    · simp only [scanRight, if_pos hc] at h ⊢
      exact ih (c + 1) (by omega)
    · simp only [scanRight, if_neg hc]
      exact hc

theorem scanRight_min (ind : List Nat) (v : Nat) :
    ∀ fuel c j, c ≤ j → ind.getD j 0 ≠ v → scanRight ind v c fuel ≤ j := by
  intro fuel
  induction fuel with
  | zero => intro c j h1 _; simpa only [scanRight] using h1
  | succ fuel ih =>
    intro c j h1 h2
    by_cases hc : ind.getD c 0 = v
    · have hcj : c + 1 ≤ j := by
        rcases Nat.lt_or_ge c j with h | h
        · omega
        · have : j = c := by omega
          subst this
          exact absurd hc h2
      simp only [scanRight, if_pos hc]
      exact ih (c + 1) j hcj h2
    · simp only [scanRight, if_neg hc]
      exact h1

theorem replaceCharsAt_indices (r : ROW) (col1 col2 : Nat) (g : List Nat)
    (h : ¬(col1 ≥ col2 ∨ col2 > r.width ∨ g = [])) :
    (replaceCharsAt r col1 col2 g).indices
      = (List.range (r.width + 1)).map (replaceIdxFun r col1 col2 g.length) := by
  unfold replaceCharsAt
  rw [if_neg h]

theorem replaceCharsAt_chars (r : ROW) (col1 col2 : Nat) (g : List Nat)
    (h : ¬(col1 ≥ col2 ∨ col2 > r.width ∨ g = [])) :
    (replaceCharsAt r col1 col2 g).chars = replaceNewChars r col1 col2 g := by
  unfold replaceCharsAt
  rw [if_neg h]

theorem replaceCharsAt_width (r : ROW) (col1 col2 : Nat) (g : List Nat) :
    (replaceCharsAt r col1 col2 g).width = r.width := by
  unfold replaceCharsAt
  split <;> rfl

/-- Positions of the glyph-expansion scans of `ROW::ReplaceCharacters` on a
row satisfying the invariants: `col0 ≤ col1`, `col2 ≤ col3 ≤ W`, the offsets
on `[col0, col1)` all equal `ch0`, those on `[col2, col3)` all equal
`ch1ref`, and `indices[col3]` differs from `ch1ref`. -/
theorem replace_scan_facts (r : ROW) (col1 col2 col0 col3 ch0 ch1ref : Nat)
    (hv : Valid r) (h12 : col1 < col2) (h2W : col2 ≤ r.width)
    (hch0 : ch0 = r.indices.getD col1 0)
    (hcol0 : col0 = scanLeft r.indices col1 ch0)
    (hch1 : ch1ref = r.indices.getD (col2 - 1) 0)
    (hcol3 : col3 = scanRight r.indices ch1ref col2 (r.width + 2 - col2)) :
    col0 ≤ col1 ∧ col2 ≤ col3 ∧ col3 ≤ r.width ∧
    r.indices.getD col3 0 ≠ ch1ref ∧
    (∀ j, col2 ≤ j → j < col3 → r.indices.getD j 0 = ch1ref) ∧
    (∀ j, col0 ≤ j → j < col1 → r.indices.getD j 0 = ch0) := by
  obtain ⟨hlen, hclen, hm, hstrict⟩ := hv
  subst hch0 hcol0 hch1 hcol3
  have h3W : scanRight r.indices (r.indices.getD (col2 - 1) 0) col2 (r.width + 2 - col2)
      ≤ r.width :=
    scanRight_min _ _ _ col2 r.width h2W
      (Nat.ne_of_gt (hstrict (col2 - 1) (by omega)))
  refine ⟨scanLeft_le _ _ _, scanRight_ge _ _ _ _, h3W, ?_, ?_, ?_⟩
  · exact scanRight_stop _ _ _ col2 (by omega)
  · intro j hj1 hj2
    exact scanRight_eq _ _ _ col2 j hj1 hj2
  · intro j hj1 hj2
    exact scanLeft_eq _ _ col1 j hj1 hj2

/-- Effect of `ROW::ReplaceCharacters` on the region it writes the glyph
into: all of `[col1, col2)` point at the glyph start `ch0 + leadingSpaces`,
`indices[col2]` sits `g.length` code units later, and the glyph's code
units are stored there. -/
theorem replace_glyph_cols (r : ROW) (col1 col2 : Nat) (g : List Nat)
    (hv : Valid r) (h12 : col1 < col2) (h2W : col2 ≤ r.width) (hg : g ≠ []) :
    (∀ c, col1 ≤ c → c < col2 →
      (replaceCharsAt r col1 col2 g).indices.getD c 0
        = r.indices.getD col1 0 + (col1 - scanLeft r.indices col1 (r.indices.getD col1 0))) ∧
    (replaceCharsAt r col1 col2 g).indices.getD col2 0
        = r.indices.getD col1 0 + (col1 - scanLeft r.indices col1 (r.indices.getD col1 0))
          + g.length ∧
    (∀ k, k < g.length →
      (replaceCharsAt r col1 col2 g).chars.getD
        (r.indices.getD col1 0 + (col1 - scanLeft r.indices col1 (r.indices.getD col1 0)) + k) 0
        = g.getD k 0) := by
  have hguard : ¬(col1 ≥ col2 ∨ col2 > r.width ∨ g = []) := by
    simp only [not_or]
    exact ⟨by omega, by omega, hg⟩
  obtain ⟨h01, h23, h3W, hstop, hflat, hlead⟩ :=
    replace_scan_facts r col1 col2 _ _ _ _ hv h12 h2W rfl rfl rfl rfl
  obtain ⟨hlen, hclen, hm, hstrict⟩ := hv
  have hch0len : r.indices.getD col1 0 ≤ r.chars.length := by
    rw [hclen]
    exact Nat.le_of_lt (hstrict col1 (by omega))
  have htake : (r.chars.take (r.indices.getD col1 0)).length = r.indices.getD col1 0 := by
    rw [List.length_take]
    omega
  rw [replaceCharsAt_indices r col1 col2 g hguard, replaceCharsAt_chars r col1 col2 g hguard]
  simp only [replaceNewChars]
  refine ⟨?_, ?_, ?_⟩
  · intro c hc1 hc2
    rw [getD_range_map _ (show c < r.width + 1 by omega)]
    simp only [replaceIdxFun]
    rw [if_neg (by omega), if_neg (by omega), if_pos (by omega)]
  · rw [getD_range_map _ (show col2 < r.width + 1 by omega)]
    simp only [replaceIdxFun]
    rcases Nat.lt_or_ge col2
        (scanRight r.indices (r.indices.getD (col2 - 1) 0) col2 (r.width + 2 - col2)) with
      h | h
    · rw [if_neg (by omega), if_neg (by omega), if_neg (by omega), if_pos h]
      omega
    · have hc23 : col2
          = scanRight r.indices (r.indices.getD (col2 - 1) 0) col2 (r.width + 2 - col2) := by
        omega
      rw [if_neg (by omega), if_neg (by omega), if_neg (by omega), if_neg (by omega)]
      rw [← hc23]
      omega
  · intro k hk
    rw [Nat.add_assoc]
    rw [getD_append_append _ _ _ _ _ 0 htake (by simp; omega)]
    rw [getD_append_append _ _ _ _ _ 0 (by simp) hk]

/-- C1: for every row satisfying the invariants, every in-range non-empty
glyph write `ReplaceCharacters(col, width, g)`, and every column `c` of a
pre-existing glyph that overlapped `[col, col + width)` (witnessed by a
column `cover` of the write range with the same offset) lying outside the
write range, column `c` afterwards holds a single-code-unit blank U+0020:
its offset advances by exactly one code unit and that code unit is a
space, so no column points into fragmented half-glyph data. -/
theorem claim_C1 (r : ROW) (col width : Nat) (g : List Nat) (c cover : Nat)
    (hv : Valid r) (hw : 1 ≤ width) (hcw : col + width ≤ r.width) (hg : g ≠ [])
    (hcov1 : col ≤ cover) (hcov2 : cover < col + width)
    (hsame : r.indices.getD c 0 = r.indices.getD cover 0)
    (hcW : c < r.width)
    (hout : c < col ∨ col + width ≤ c) :
    (r.ReplaceCharacters col width g).indices.getD (c + 1) 0
        = (r.ReplaceCharacters col width g).indices.getD c 0 + 1 ∧
    (r.ReplaceCharacters col width g).chars.getD
        ((r.ReplaceCharacters col width g).indices.getD c 0) 0 = 0x20 := by
  have hguard : ¬(col ≥ col + width ∨ col + width > r.width ∨ g = []) := by
    simp only [not_or]
    exact ⟨by omega, by omega, hg⟩
  obtain ⟨h01, h23, h3W, hstop, hflat, hlead⟩ :=
    replace_scan_facts r col (col + width) _ _ _ _ hv (by omega) hcw rfl rfl rfl rfl
  obtain ⟨hlen, hclen, hm, hstrict⟩ := hv
  have hmono := mono_getD_le r.indices r.width hm
  have hch0len : r.indices.getD col 0 ≤ r.chars.length := by
    rw [hclen]
    exact Nat.le_of_lt (hstrict col (by omega))
  have htake : (r.chars.take (r.indices.getD col 0)).length = r.indices.getD col 0 := by
    rw [List.length_take]
    omega
  simp only [ROW.ReplaceCharacters]
  rw [replaceCharsAt_indices r col (col + width) g hguard,
      replaceCharsAt_chars r col (col + width) g hguard]
  simp only [replaceNewChars]
  rcases hout with hlt | hge
  · have hcind : r.indices.getD c 0 = r.indices.getD col 0 := by
      have h1 : r.indices.getD c 0 ≤ r.indices.getD col 0 :=
        hmono c col (by omega) (by omega)
      have h2 : r.indices.getD col 0 ≤ r.indices.getD cover 0 :=
        hmono col cover hcov1 (by omega)
      omega
    have hc0 : scanLeft r.indices col (r.indices.getD col 0) ≤ c := by
      by_contra hcon
      push_neg at hcon
      rcases scanLeft_stop r.indices col (r.indices.getD col 0) with h0 | hne
      · omega
      · apply hne
        have ha : r.indices.getD c 0
            ≤ r.indices.getD (scanLeft r.indices col (r.indices.getD col 0) - 1) 0 :=
          hmono _ _ (by omega) (by omega)
        have hb : r.indices.getD (scanLeft r.indices col (r.indices.getD col 0) - 1) 0
            ≤ r.indices.getD col 0 :=
          hmono _ _ (by omega) (by omega)
        omega
    have hval : ∀ j, scanLeft r.indices col (r.indices.getD col 0) ≤ j → j ≤ col →
        ((List.range (r.width + 1)).map (replaceIdxFun r col (col + width) g.length)).getD j 0
          = r.indices.getD col 0 + (j - scanLeft r.indices col (r.indices.getD col 0)) := by
      intro j hj1 hj2
      rw [getD_range_map _ (show j < r.width + 1 by omega)]
      simp only [replaceIdxFun]
      rcases Nat.lt_or_ge j col with h | h
      · rw [if_neg (by omega), if_pos h]
      · rw [if_neg (by omega), if_neg (by omega), if_pos (by omega)]
        omega
    constructor
    · rw [hval c hc0 (by omega), hval (c + 1) (by omega) (by omega)]
      omega
    · rw [hval c hc0 (by omega)]
      rw [getD_append_append _ _ _ _ _ 0 htake
        (by simp only [List.length_append, List.length_replicate]; omega)]
      rw [List.getD_append _ _ _ _
        (by simp only [List.length_append, List.length_replicate]; omega)]
      rw [List.getD_append _ _ _ _ (by simp only [List.length_replicate]; omega)]
      exact getD_replicate_lt (by omega)
  · have hchref : r.indices.getD c 0 = r.indices.getD (col + width - 1) 0 := by
      have h1 : r.indices.getD cover 0 ≤ r.indices.getD (col + width - 1) 0 :=
        hmono _ _ (by omega) (by omega)
      have h2 : r.indices.getD (col + width - 1) 0 ≤ r.indices.getD c 0 :=
        hmono _ _ (by omega) (by omega)
      omega
    have hcol3 : c < scanRight r.indices (r.indices.getD (col + width - 1) 0)
        (col + width) (r.width + 2 - (col + width)) := by
      by_contra hcon
      push_neg at hcon
      apply hstop
      have ha : r.indices.getD (col + width - 1) 0
          ≤ r.indices.getD (scanRight r.indices (r.indices.getD (col + width - 1) 0)
              (col + width) (r.width + 2 - (col + width))) 0 :=
        hmono _ _ (by omega) (by omega)
      have hb : r.indices.getD (scanRight r.indices (r.indices.getD (col + width - 1) 0)
              (col + width) (r.width + 2 - (col + width))) 0
          ≤ r.indices.getD c 0 :=
        hmono _ _ hcon (by omega)
      omega
    have hval : ∀ j, col + width ≤ j →
        j ≤ scanRight r.indices (r.indices.getD (col + width - 1) 0)
              (col + width) (r.width + 2 - (col + width)) →
        ((List.range (r.width + 1)).map (replaceIdxFun r col (col + width) g.length)).getD j 0
          = r.indices.getD col 0 + (col - scanLeft r.indices col (r.indices.getD col 0))
            + g.length + (j - (col + width)) := by
      intro j hj1 hj2
      rw [getD_range_map _ (show j < r.width + 1 by omega)]
      simp only [replaceIdxFun]
      rcases Nat.lt_or_ge j (scanRight r.indices (r.indices.getD (col + width - 1) 0)
          (col + width) (r.width + 2 - (col + width))) with h | h
      · rw [if_neg (by omega), if_neg (by omega), if_neg (by omega), if_pos h]
      · have hj3 : j = scanRight r.indices (r.indices.getD (col + width - 1) 0)
            (col + width) (r.width + 2 - (col + width)) := by
          omega
        rw [if_neg (by omega), if_neg (by omega), if_neg (by omega), if_neg (by omega)]
        rw [← hj3]
        omega
    constructor
    · rw [hval c hge (by omega), hval (c + 1) (by omega) (by omega)]
      omega
    · rw [hval c hge (by omega)]
      rw [Nat.add_assoc, Nat.add_assoc]
      rw [getD_append_append _ _ _ _ _ 0 htake
        (by simp only [List.length_append, List.length_replicate]; omega)]
      rw [List.getD_append_right _ _ _ _
        (by simp only [List.length_append, List.length_replicate]; omega)]
      exact getD_replicate_lt
        (by simp only [List.length_append, List.length_replicate]; omega)

/-- Witness for C1 at spec scenario S3: overwriting column 4 of the wide
glyph occupying columns 3-4 of `wideRow` turns column 3 into a
single-code-unit blank. -/
theorem claim_C1_witness :
    (wideRow.ReplaceCharacters 4 1 [89]).indices.getD (3 + 1) 0
        = (wideRow.ReplaceCharacters 4 1 [89]).indices.getD 3 0 + 1 ∧
    (wideRow.ReplaceCharacters 4 1 [89]).chars.getD
        ((wideRow.ReplaceCharacters 4 1 [89]).indices.getD 3 0) 0 = 0x20 :=
  claim_C1 wideRow 4 1 [89] 3 4 (by decide) (by decide) (by decide) (by decide)
    (by decide) (by decide) (by decide) (by decide) (Or.inl (by decide))

/-- C2 fails on the code: `ROW::Resize` writes only `colsToCopy +
trailingWhitespace = newWidth` entries of the caller-provided `indices`
buffer, leaving slot `newWidth` at its prior value.  Resizing a freshly
reset width-2 row to width 2 with a zeroed caller buffer yields the offset
table `[0, 1, 0]`, which is not non-decreasing. -/
theorem claim_C2 :
    ¬(∀ c, c < ((freshRow 2 attrA).Resize [0, 0, 0] 2).width →
        ((freshRow 2 attrA).Resize [0, 0, 0] 2).indices.getD c 0
          ≤ ((freshRow 2 attrA).Resize [0, 0, 0] 2).indices.getD (c + 1) 0) := by
  decide

/-- C3: after `Reset(a)` every column holds the single blank U+0020, the
offset table is the identity `indices[c] = c` (including the total at
`indices[W]`), and the attribute storage is the single run `(a, W)`. -/
theorem claim_C3 (r : ROW) (a : TextAttribute) (c : Nat) (hc : c < r.width) :
    (r.Reset a).GlyphAt c = [0x20] ∧
    (r.Reset a).indices.getD c 0 = c ∧
    (r.Reset a).indices.getD r.width 0 = r.width ∧
    (r.Reset a).attr = [⟨a, r.width⟩] := by
  refine ⟨?_, ?_, ?_, rfl⟩
  · simp only [ROW.GlyphAt, ROW.Reset]
    rw [Nat.min_eq_left (by omega)]
    rw [getD_range (show c < r.width + 1 by omega)]
    have hstop : scanRight (List.range (r.width + 1)) c (c + 1) (r.width + 1) = c + 1 := by
      have h1 := scanRight_ge (List.range (r.width + 1)) c (r.width + 1) (c + 1)
      have h2 : scanRight (List.range (r.width + 1)) c (c + 1) (r.width + 1) ≤ c + 1 :=
        scanRight_min _ _ _ (c + 1) (c + 1) (Nat.le_refl _)
          (by rw [getD_range (show c + 1 < r.width + 1 by omega)]; omega)
      omega
    rw [hstop, getD_range (show c + 1 < r.width + 1 by omega)]
    rw [List.drop_replicate, List.take_replicate]
    rw [show c + 1 - c = 1 by omega]
    rw [show min 1 (r.width - c) = 1 by omega]
    rfl
  · simp only [ROW.Reset]
    exact getD_range (by omega) 0
  · simp only [ROW.Reset]
    exact getD_range (by omega) 0

/-- Witness for C3 on a concrete width-3 row. -/
theorem claim_C3_witness :
    ((freshRow 3 attrA).Reset attrB).GlyphAt 1 = [0x20] ∧
    ((freshRow 3 attrA).Reset attrB).indices.getD 1 0 = 1 ∧
    ((freshRow 3 attrA).Reset attrB).indices.getD 3 0 = 3 ∧
    ((freshRow 3 attrA).Reset attrB).attr = [⟨attrB, 3⟩] :=
  claim_C3 (freshRow 3 attrA) attrB 1 (by decide)

/-- C4: when `Resize` shrinks a row (`newW < W`), every column from the
final `colsToCopy` (the `scanLeft` loop backs it off the whole clipped
glyph) up to `newW` becomes a blank — its offset is
`charsToCopy + (c - colsToCopy)` and the code unit there is U+0020 — and
the new `chars` is exactly the first `charsToCopy` old code units plus
blanks, so no code unit of the clipped glyph survives. -/
theorem claim_C4 (r : ROW) (newIndices : List Nat) (newW c : Nat)
    (hv : Valid r) (hW : newW < r.width)
    (hc1 : scanLeft r.indices newW (r.indices.getD newW 0) ≤ c) (hc2 : c < newW) :
    (r.Resize newIndices newW).indices.getD c 0
        = r.indices.getD newW 0 + (c - scanLeft r.indices newW (r.indices.getD newW 0)) ∧
    (r.Resize newIndices newW).chars.getD
        (r.indices.getD newW 0 + (c - scanLeft r.indices newW (r.indices.getD newW 0))) 0
        = 0x20 ∧
    (r.Resize newIndices newW).chars
        = r.chars.take (r.indices.getD newW 0)
          ++ List.replicate (newW - scanLeft r.indices newW (r.indices.getD newW 0)) 0x20 := by
  obtain ⟨hlen, hclen, hm, hstrict⟩ := hv
  have hmono := mono_getD_le r.indices r.width hm
  have hsl := scanLeft_le r.indices newW (r.indices.getD newW 0)
  have hctc : r.indices.getD newW 0 ≤ r.chars.length := by
    rw [hclen]
    exact hmono newW r.width (by omega) (by omega)
  simp only [ROW.Resize]
  rw [Nat.min_eq_right (Nat.le_of_lt hW)]
  refine ⟨?_, ?_, ?_⟩
  · have htakeI : (r.indices.take (scanLeft r.indices newW (r.indices.getD newW 0))).length
        = scanLeft r.indices newW (r.indices.getD newW 0) := by
      rw [List.length_take]
      omega
    rw [List.getD_append _ _ _ _
      (by simp only [List.length_append, List.length_map, List.length_range, htakeI]; omega)]
    rw [List.getD_append_right _ _ _ _ (by rw [htakeI]; omega)]
    rw [htakeI]
    rw [getD_range_map _ (by omega)]
  · have htakeC : (r.chars.take (r.indices.getD newW 0)).length = r.indices.getD newW 0 := by
      rw [List.length_take]
      omega
    rw [List.getD_append_right _ _ _ _ (by rw [htakeC]; omega)]
    rw [htakeC]
    exact getD_replicate_lt (by omega)
  · rfl

/-- Witness for C4 at spec scenario S7: shrinking `wideRow5` (wide glyph on
columns 3-4) to width 4 drops the glyph whole and blanks column 3. -/
theorem claim_C4_witness :
    (wideRow5.Resize [9, 9, 9, 9, 9] 4).indices.getD 3 0
        = wideRow5.indices.getD 4 0
          + (3 - scanLeft wideRow5.indices 4 (wideRow5.indices.getD 4 0)) ∧
    (wideRow5.Resize [9, 9, 9, 9, 9] 4).chars.getD
        (wideRow5.indices.getD 4 0
          + (3 - scanLeft wideRow5.indices 4 (wideRow5.indices.getD 4 0))) 0 = 0x20 ∧
    (wideRow5.Resize [9, 9, 9, 9, 9] 4).chars
        = wideRow5.chars.take (wideRow5.indices.getD 4 0)
          ++ List.replicate (4 - scanLeft wideRow5.indices 4 (wideRow5.indices.getD 4 0)) 0x20 :=
  claim_C4 wideRow5 [9, 9, 9, 9, 9] 4 3 (by decide) (by decide) (by decide) (by decide)

/-- C5 fails on the code: `std::iota(it, it + trailingWhitespace,
charsToCopy)` fills only `indices[colsToCopy .. newW)`, one entry short of
the claimed inclusive range, so `indices[newW]` keeps the caller buffer's
prior value (here 7) instead of `charsToCopy + trailingWhitespace = 1`. -/
theorem claim_C5 :
    ((freshRow 1 attrA).Resize [7, 7] 1).indices.getD 1 0 = 7 ∧
    ((freshRow 1 attrA).Resize [7, 7] 1).indices.getD 1 0 ≠ 1 := by
  decide

theorem valid_of_fields (r s : ROW) (h1 : s.indices = r.indices) (h2 : s.chars = r.chars)
    (h3 : s.width = r.width) (hv : Valid r) : Valid s := by
  unfold Valid at hv ⊢
  rw [h1, h2, h3]
  exact hv

/-- After `ClearCell(col)` on a row satisfying the invariants, column `col`
holds a single-code-unit blank. -/
theorem clearCell_blank (r : ROW) (col : Nat) (hv : Valid r) (hc : col < r.width) :
    (r.ClearCell col).indices.getD (col + 1) 0 = (r.ClearCell col).indices.getD col 0 + 1 ∧
    (r.ClearCell col).chars.getD ((r.ClearCell col).indices.getD col 0) 0 = 0x20 := by
  obtain ⟨hall, hcol2, hchars⟩ :=
    replace_glyph_cols r col (col + 1) [0x20] hv (by omega) (by omega) (by decide)
  have h1 : (replaceCharsAt r col (col + 1) [0x20]).indices.getD col 0
      = r.indices.getD col 0 + (col - scanLeft r.indices col (r.indices.getD col 0)) :=
    hall col (Nat.le_refl _) (by omega)
  have h3 := hchars 0 (by decide)
  simp only [ROW.ClearCell, ROW.ReplaceCharacters]
  constructor
  · rw [hcol2, h1]
    simp
  · rw [h1]
    simpa using h3

theorem colorStep_fields (cell : Cell) (s : WriteState) :
    (colorStep cell s).it = s.it ∧ (colorStep cell s).currentIndex = s.currentIndex ∧
    (colorStep cell s).row.chars = s.row.chars ∧
    (colorStep cell s).row.indices = s.row.indices ∧
    (colorStep cell s).row.width = s.row.width ∧
    (colorStep cell s).row.doubleBytePadded = s.row.doubleBytePadded ∧
    (colorStep cell s).row.wrapForced = s.row.wrapForced := by
  unfold colorStep ROW.Replace
  split
  · split
    · exact ⟨rfl, rfl, rfl, rfl, rfl, rfl, rfl⟩
    · exact ⟨rfl, rfl, rfl, rfl, rfl, rfl, rfl⟩
  · exact ⟨rfl, rfl, rfl, rfl, rfl, rfl, rfl⟩

theorem writeCellsLoop_past (final : Nat) (wrap : Option Bool) (fuel : Nat) (s : WriteState)
    (h : final < s.currentIndex) : writeCellsLoop final wrap fuel s = s := by
  cases fuel with
  | zero => rfl
  | succ fuel =>
    simp only [writeCellsLoop]
    split
    · rfl
    · rw [if_neg (by omega)]

/-- C6: whenever the `WriteCells` loop sits at the last writable column
with a `Leading` cell (behavior other than `StoredOnly`) at the head of
the iterator, the rest of the loop leaves the iterator untouched (the
`Leading` cell is not consumed), clears that column to a single blank,
sets `doubleBytePadded`, and steps `currentIndex` past the limit so the
loop exits and `WriteCells` returns the iterator still positioned at the
`Leading` cell. -/
theorem claim_C6 (final : Nat) (wrap : Option Bool) (fuel : Nat) (s : WriteState)
    (cell : Cell) (rest : List Cell)
    (hit : s.it = cell :: rest) (hd : cell.dbcs = DbcsKind.leading)
    (hb : cell.behavior ≠ Behavior.storedOnly) (hci : s.currentIndex = final)
    (hfw : final < s.row.width) (hv : Valid s.row) :
    (writeCellsLoop final wrap (fuel + 1) s).it = cell :: rest ∧
    (writeCellsLoop final wrap (fuel + 1) s).currentIndex = final + 1 ∧
    (writeCellsLoop final wrap (fuel + 1) s).row.doubleBytePadded = true ∧
    (writeCellsLoop final wrap (fuel + 1) s).row.indices.getD (final + 1) 0
        = (writeCellsLoop final wrap (fuel + 1) s).row.indices.getD final 0 + 1 ∧
    (writeCellsLoop final wrap (fuel + 1) s).row.chars.getD
        ((writeCellsLoop final wrap (fuel + 1) s).row.indices.getD final 0) 0 = 0x20 := by
  obtain ⟨hcit, hcci, hcch, hcin, hcw, hcdb, hcwf⟩ := colorStep_fields cell s
  have hvc : Valid (colorStep cell s).row := valid_of_fields s.row _ hcin hcch hcw hv
  have hblank := clearCell_blank (colorStep cell s).row final hvc (by rw [hcw]; exact hfw)
  have hfill : (colorStep cell s).currentIndex = final := by rw [hcci]; exact hci
  have hx : ∃ row2 : ROW, textStep final wrap cell rest (colorStep cell s)
      = { colorStep cell s with row := row2 } ∧
      row2.indices = ((colorStep cell s).row.ClearCell final).indices ∧
      row2.chars = ((colorStep cell s).row.ClearCell final).chars ∧
      row2.doubleBytePadded = true := by
    unfold textStep
    rw [if_pos hb]
    simp only [hd]
    rw [if_pos hfill, hfill]
    by_cases hwr : wrap.isSome = true ∧ final = final
    · rw [if_pos hwr]
      exact ⟨_, rfl, rfl, rfl, rfl⟩
    · rw [if_neg hwr]
      exact ⟨_, rfl, rfl, rfl, rfl⟩
  obtain ⟨row2, hts, hind, hch, hdbp⟩ := hx
  have hstep : writeCellsLoop final wrap (fuel + 1) s
      = writeCellsLoop final wrap fuel
          { textStep final wrap cell rest (colorStep cell s) with
            currentIndex := (textStep final wrap cell rest (colorStep cell s)).currentIndex
              + 1 } := by
    simp only [writeCellsLoop, hit]
    rw [if_pos (by omega)]
  rw [hstep, hts]
  rw [writeCellsLoop_past _ _ _ _ (by simp; omega)]
  refine ⟨?_, ?_, ?_, ?_, ?_⟩
  · show (colorStep cell s).it = cell :: rest
    rw [hcit, hit]
  · show (colorStep cell s).currentIndex + 1 = final + 1
    rw [hfill]
  · exact hdbp
  · show row2.indices.getD (final + 1) 0 = row2.indices.getD final 0 + 1
    rw [hind]
    exact hblank.1
  · show row2.chars.getD (row2.indices.getD final 0) 0 = 0x20
    rw [hind, hch]
    exact hblank.2

/-- Witness for C6 at spec scenario S6's final step: a fresh width-4 row,
loop at column 3 (the last), `Leading` cell at the head. -/
theorem claim_C6_witness :
    (writeCellsLoop 3 none (0 + 1) c6State).it = leadCell :: [] ∧
    (writeCellsLoop 3 none (0 + 1) c6State).currentIndex = 3 + 1 ∧
    (writeCellsLoop 3 none (0 + 1) c6State).row.doubleBytePadded = true ∧
    (writeCellsLoop 3 none (0 + 1) c6State).row.indices.getD (3 + 1) 0
        = (writeCellsLoop 3 none (0 + 1) c6State).row.indices.getD 3 0 + 1 ∧
    (writeCellsLoop 3 none (0 + 1) c6State).row.chars.getD
        ((writeCellsLoop 3 none (0 + 1) c6State).row.indices.getD 3 0) 0 = 0x20 :=
  claim_C6 3 none 0 c6State leadCell [] rfl rfl (by decide) rfl (by decide) (by decide)

/-- C7: `WriteCells` raises `E_INVALIDARG` when `index ≥ W` or a provided
`limitRight ≥ W`, and `ClearColumn` raises it when `column ≥ W`; both
checks run before any mutation, so no modified row is produced. -/
theorem claim_C7 (r : ROW) (cells : List Cell) (index : Nat) (wrap : Option Bool)
    (limitRight : Option Nat) (l column : Nat)
    (hw : r.width ≤ index ∨ (limitRight = some l ∧ r.width ≤ l))
    (hc : r.width ≤ column) :
    r.WriteCells cells index wrap limitRight = Except.error () ∧
    r.ClearColumn column = Except.error () := by
  constructor
  · unfold ROW.WriteCells
    rcases hw with h | ⟨hl, hge⟩
    · rw [if_pos h]
    · by_cases hi : r.width ≤ index
      · rw [if_pos hi]
      · rw [if_neg hi, if_pos (by rw [hl]; exact hge)]
  · unfold ROW.ClearColumn
    rw [if_pos hc]

/-- Witness for C7: width-3 row, `index = 5`, `limitRight = some 7`,
`column = 9`. -/
theorem claim_C7_witness :
    (freshRow 3 attrA).WriteCells cellsNormal 5 none (some 7) = Except.error () ∧
    (freshRow 3 attrA).ClearColumn 9 = Except.error () :=
  claim_C7 (freshRow 3 attrA) cellsNormal 5 none (some 7) 7 9 (Or.inl (by decide)) (by decide)

/-- C8 counterexample: `hyperRow` carries hyperlink id 5 in two
non-adjacent runs; `GetHyperlinks` (which never deduplicates) returns it
twice, so "each hyperlink id occurs exactly once in the result" is false. -/
theorem claim_C8_counterexample :
    hyperRow.GetHyperlinks = [5, 5] ∧ hyperRow.GetHyperlinks.count 5 ≠ 1 := by
  decide

theorem getHyperlinks_foldl (runs : List AttrRun) (acc : List Nat) :
    runs.foldl
        (fun ids run =>
          if run.value.IsHyperlink then ids ++ [run.value.GetHyperlinkId] else ids)
        acc
      = acc ++ (runs.filter (fun run => run.value.IsHyperlink)).map
          (fun run => run.value.GetHyperlinkId) := by
  induction runs generalizing acc with
  | nil => simp
  | cons run rest ih =>
    simp only [List.foldl_cons, List.filter_cons]
    by_cases h : run.value.IsHyperlink
    · rw [if_pos h, ih]
      simp [h]
    · rw [if_neg h, ih]
      congr 1
      simp [h]

/-- C8 (amended): `GetHyperlinks` returns, in run order, the id of every
run whose attribute is a hyperlink — one entry per such run, without
deduplication — and no other value occurs. -/
theorem claim_C8 (r : ROW) :
    r.GetHyperlinks
        = (r.attr.filter (fun run => run.value.IsHyperlink)).map
            (fun run => run.value.GetHyperlinkId) ∧
    ∀ v, v ∈ r.GetHyperlinks ↔
        ∃ run, run ∈ r.attr ∧ run.value.IsHyperlink = true ∧ run.value.GetHyperlinkId = v := by
  have h : r.GetHyperlinks
      = (r.attr.filter (fun run => run.value.IsHyperlink)).map
          (fun run => run.value.GetHyperlinkId) := by
    unfold ROW.GetHyperlinks
    rw [getHyperlinks_foldl]
    simp
  refine ⟨h, ?_⟩
  intro v
  rw [h]
  simp only [List.mem_map, List.mem_filter]
  constructor
  · rintro ⟨run, ⟨hmem, hhyp⟩, hid⟩
    exact ⟨run, hmem, hhyp, hid⟩
  · rintro ⟨run, hmem, hhyp, hid⟩
    exact ⟨run, ⟨hmem, hhyp⟩, hid⟩

theorem decompress_nil : decompress [] = [] := rfl

theorem decompress_cons (run : AttrRun) (runs : List AttrRun) :
    decompress (run :: runs) = List.replicate run.length run.value ++ decompress runs := rfl

theorem decompress_compress (l : List TextAttribute) : decompress (compress l) = l := by
  induction l with
  | nil => rfl
  | cons a rest ih =>
    simp only [compress]
    cases hc : compress rest with
    | nil =>
      rw [hc] at ih
      rw [decompress_nil] at ih
      simp [decompress_cons, decompress_nil, ← ih]
    | cons run runs =>
      rw [hc] at ih
      dsimp only
      by_cases hv : run.value = a
      · rw [if_pos hv]
        rw [decompress_cons] at ih ⊢
        rw [hv] at ih
        rw [← ih]
        simp [List.replicate_succ]
      · rw [if_neg hv]
        rw [decompress_cons, decompress_cons]
        rw [decompress_cons] at ih
        rw [← ih]
        simp

theorem attrAt_rleReplace (runs : List AttrRun) (b e col : Nat) (v : TextAttribute)
    (hb : b ≤ col) (he : col < e) (hl : col < (decompress runs).length) :
    attrAt (rleReplace runs b e v) col = v := by
  unfold attrAt rleReplace
  rw [decompress_compress]
  have htake : ((decompress runs).take b).length = b := by
    rw [List.length_take]
    omega
  rw [List.getD_append _ _ _ _
    (by simp only [List.length_append, List.length_replicate, htake]; omega)]
  rw [List.getD_append_right _ _ _ _ (by rw [htake]; omega)]
  rw [htake]
  exact getD_replicate_lt (by omega)

/-- C9 (amended): when the `WriteCells` loop ends with a nonempty pending
run (`colorUses ≠ 0`, i.e. at least one processed cell had behavior other
than `Current`), the final `Replace(colorStarts, currentIndex,
currentColor)` is committed, and every column of the pending run
`[colorStarts, currentIndex)` carries `currentColor` afterwards. -/
theorem claim_C9 (r : ROW) (cells : List Cell) (index : Nat) (wrap : Option Bool)
    (final col : Nat)
    (hcu : (writeLoopOut r cells index wrap final).colorUses ≠ 0)
    (h1 : (writeLoopOut r cells index wrap final).colorStarts ≤ col)
    (h2 : col < (writeLoopOut r cells index wrap final).currentIndex)
    (h3 : col < rleSize (writeLoopOut r cells index wrap final).row.attr) :
    (writeCellsFrom r cells index wrap final).1.attr
        = rleReplace (writeLoopOut r cells index wrap final).row.attr
            (writeLoopOut r cells index wrap final).colorStarts
            (writeLoopOut r cells index wrap final).currentIndex
            (writeLoopOut r cells index wrap final).currentColor ∧
    attrAt (writeCellsFrom r cells index wrap final).1.attr col
        = (writeLoopOut r cells index wrap final).currentColor := by
  have hfst : (writeCellsFrom r cells index wrap final).1
      = (writeLoopOut r cells index wrap final).row.Replace
          (writeLoopOut r cells index wrap final).colorStarts
          (writeLoopOut r cells index wrap final).currentIndex
          (writeLoopOut r cells index wrap final).currentColor := by
    simp only [writeCellsFrom]
    rw [if_pos hcu]
  constructor
  · rw [hfst]
    rfl
  · rw [hfst]
    show attrAt (rleReplace _ _ _ _) col = _
    exact attrAt_rleReplace _ _ _ _ _ h1 h2 h3

/-- Witness for C9: one `Normal` cell written at column 0 of a fresh
width-2 row; the pending run `[0, 1)` is committed with the cell's
attribute. -/
theorem claim_C9_witness :
    (writeCellsFrom (freshRow 2 attrA) cellsNormal 0 none 1).1.attr
        = rleReplace (writeLoopOut (freshRow 2 attrA) cellsNormal 0 none 1).row.attr
            (writeLoopOut (freshRow 2 attrA) cellsNormal 0 none 1).colorStarts
            (writeLoopOut (freshRow 2 attrA) cellsNormal 0 none 1).currentIndex
            (writeLoopOut (freshRow 2 attrA) cellsNormal 0 none 1).currentColor ∧
    attrAt (writeCellsFrom (freshRow 2 attrA) cellsNormal 0 none 1).1.attr 0
        = (writeLoopOut (freshRow 2 attrA) cellsNormal 0 none 1).currentColor :=
  claim_C9 (freshRow 2 attrA) cellsNormal 0 none 1 0
    (by decide) (by decide) (by decide) (by decide)

/-- C9 counterexample: a call whose only processed cell has behavior
`Current` consumes the cell (the returned iterator is empty) but skips the
final `Replace` (`if (colorUses)` fails), so the claimed unconditional
commit is false: the resulting attributes differ from what the committed
`Replace` would produce. -/
theorem claim_C9_counterexample :
    (writeCellsFrom (freshRow 2 attrA) cellsCurrent 0 none 1).2 = [] ∧
    (writeCellsFrom (freshRow 2 attrA) cellsCurrent 0 none 1).1.attr
      ≠ rleReplace (writeLoopOut (freshRow 2 attrA) cellsCurrent 0 none 1).row.attr
          (writeLoopOut (freshRow 2 attrA) cellsCurrent 0 none 1).colorStarts
          (writeLoopOut (freshRow 2 attrA) cellsCurrent 0 none 1).currentIndex
          (writeLoopOut (freshRow 2 attrA) cellsCurrent 0 none 1).currentColor := by
  decide

/-- C10 counterexample: `ReplaceCharacters(0, -1, "X")` has `width < 1`,
yet it is not a silent no-op — `gsl::narrow<uint16_t>(x + width)` throws
before the degenerate-range guard is reached. -/
theorem claim_C10_counterexample :
    (freshRow 3 attrA).ReplaceCharactersChecked 0 (-1) [88] = Except.error () := by
  rfl

/-- C10 (amended): when `col` and `col + width` both fit `uint16_t`
(are in `[0, 65536)`), a degenerate call — `width ≤ 0`, or
`col + width > W`, or an empty glyph — returns without error and leaves
the row completely unchanged; when either narrowing fails (negative or
≥ 2^16), an error is raised instead. -/
theorem claim_C10 (r : ROW) (x width : Int) (g : List Nat)
    (h0 : 0 ≤ x) (h1 : 0 ≤ x + width) (h2 : x < 65536) (h3 : x + width < 65536)
    (hcond : x + width ≤ x ∨ (r.width : Int) < x + width ∨ g = []) :
    r.ReplaceCharactersChecked x width g = Except.ok r := by
  unfold ROW.ReplaceCharactersChecked narrow16
  rw [if_pos ⟨h0, h2⟩, if_pos ⟨h1, h3⟩]
  show Except.ok (replaceCharsAt r x.toNat (x + width).toNat g) = Except.ok r
  unfold replaceCharsAt
  rw [if_pos ?_]
  rcases hcond with h | h | h
  · exact Or.inl (by omega)
  · exact Or.inr (Or.inl (by omega))
  · exact Or.inr (Or.inr h)

/-- Witness for C10: `width = 0` with everything in range is a silent
no-op. -/
theorem claim_C10_witness :
    (freshRow 3 attrA).ReplaceCharactersChecked 2 0 [88] = Except.ok (freshRow 3 attrA) :=
  claim_C10 (freshRow 3 attrA) 2 0 [88] (by decide) (by decide) (by decide) (by decide)
    (Or.inl (by decide))
